import Mathlib

/-!
Shallow embedding of the MP4 Head Trimmer job engine (src/main.py).

Paths are modelled as their lists of components: pathlib compares paths
by their parts tuple, so `List String` with the lexicographic order is
the path order used by the sort in the scanner.  Machine floats are
modelled as exact rationals.  The external world (the ffprobe and
ffmpeg processes, the filesystem) is supplied per job through an
environment record, and the Qt signal emissions of the worker are
collected as an explicit event trace.
-/

/-- A pathlib path, as its list of parts. -/
abbrev PyPath := List String

/-- str(path): the parts joined by the separator. -/
def pathStr (p : PyPath) : String := String.intercalate "/" p

/-- Path.name: the final component (empty for an empty path). -/
def pathName (p : PyPath) : String := p.getLastD ""

/-- name.rfind(".") over the characters: the index of the last dot. -/
def rfindDotAux : List Char → Nat → Option Nat
  | [], _ => none
  | c :: rest, i =>
    match rfindDotAux rest (i + 1) with
    | some j => some j
    | none => if c = '.' then some i else none

/-- pathlib stem and suffix of a file name: split at the last dot when
that dot is neither the first nor the last character, else the suffix
is empty and the stem is the whole name. -/
def pyStemSuffix (name : String) : String × String :=
  match rfindDotAux name.data 0 with
  | some i =>
    if 0 < i ∧ i < name.data.length - 1 then
      (String.mk (name.data.take i), String.mk (name.data.drop i))
    else (name, "")
  | none => (name, "")

/-- Path.stem. -/
def pyStem (name : String) : String := (pyStemSuffix name).1

/-- Path.suffix. -/
def pySuffix (name : String) : String := (pyStemSuffix name).2

/-- is_mp4 (src/main.py line 65): path.suffix.lower() == ".mp4". -/
def is_mp4 (path : PyPath) : Bool := (pySuffix (pathName path)).toLower == ".mp4"

/-- build_output_name (src/main.py line 69).  The formatted f-string
piece for trim_seconds with format g is abstracted as the already
formatted string `trimStr`; the statements below hold for every such
string, hence for every positive trim offset. -/
def build_output_name (input_path : PyPath) (trimStr : String) (overwrite : Bool) : String :=
  if overwrite then pathName input_path
  else pyStem (pathName input_path) ++ ("_trim" ++ trimStr ++ "s") ++ pySuffix (pathName input_path)

/-- FfmpegPaths (src/main.py line 41). -/
structure FfmpegPaths where
  ffmpeg : PyPath
  ffprobe : PyPath
deriving DecidableEq, Repr

/-- Environment observed by locate_ffmpeg: the platform, existence of
the two bundled binaries, and the two shutil.which results (`none` for
a which miss; which never returns an empty string). -/
structure LocateEnv where
  isWindows : Bool
  localFfmpegExists : Bool
  localFfprobeExists : Bool
  whichFfmpeg : Option PyPath
  whichFfprobe : Option PyPath
deriving DecidableEq, Repr

/-- locate_ffmpeg (src/main.py line 47). -/
def locate_ffmpeg (app_dir : PyPath) (env : LocateEnv) : Option FfmpegPaths :=
  let local_ffmpeg := app_dir ++ ["bin", if env.isWindows then "ffmpeg.exe" else "ffmpeg"]
  let local_ffprobe := app_dir ++ ["bin", if env.isWindows then "ffprobe.exe" else "ffprobe"]
  if env.localFfmpegExists && env.localFfprobeExists then
    some ⟨local_ffmpeg, local_ffprobe⟩
  else
    match env.whichFfmpeg, env.whichFfprobe with
    | some f, some p => some ⟨f, p⟩
    | _, _ => none

/-- The status strings emitted through the progress signal. -/
inductive Status
  | Processing
  | Skipped
  | Failed
  | Done
  | Canceled
deriving DecidableEq, Repr

/-- One emission on one of the worker signals: progress(row, status,
message), overall(current, total), log(text), finished(). -/
inductive Event
  | progress (row : Nat) (status : Status) (message : String)
  | overall (current total : Nat)
  | log (text : String)
  | finished
deriving DecidableEq, Repr

/-- FileJob (src/main.py line 34). -/
structure FileJob where
  input_path : PyPath
  output_path : PyPath
  display_name : String
deriving DecidableEq, Repr

/-- Result of one ffprobe invocation as the engine observes it:
a parsed duration, an OSError on spawn, empty stdout, or stdout that
does not parse as a float. -/
inductive ProbeResult
  | ok (duration : ℚ)
  | oserror (exc : String)
  | empty
  | unparseable (text : String)
deriving DecidableEq, Repr

/-- Per-job external world: the probe outcome, whether the output path
exists at execution time, the ffmpeg process exit code and stderr, and
whether the user requests cancellation while this job is processing
(the flag is then visible from the next loop-head check on). -/
structure JobEnv where
  probe : ProbeResult
  outputExists : Bool
  returncode : Int
  stderr : String
  cancelDuring : Bool
deriving DecidableEq, Repr

/-- The single-quote character, used in one log text. -/
def squote : String := String.singleton (Char.ofNat 39)

/-- Worker._probe_duration (src/main.py line 102): the parsed duration
together with the log events the probe emits. -/
def probe_duration (input_path : PyPath) (r : ProbeResult) : Option ℚ × List Event :=
  match r with
  | .ok d => (some d, [])
  | .oserror exc => (none, [.log ("Failed to run ffprobe: " ++ exc)])
  | .empty => (none, [.log ("ffprobe returned no duration for " ++ pathStr input_path ++ ".")])
  | .unparseable t =>
    (none, [.log ("Could not parse duration " ++ squote ++ t ++ squote ++ " for " ++ pathStr input_path ++ ".")])

/-- Round to the nearest integer with ties to even, the rounding of
the Python fixed-point float format. -/
def roundHalfEven (q : ℚ) : ℤ :=
  if q - ⌊q⌋ < 1/2 then ⌊q⌋
  else if (1 : ℚ)/2 < q - ⌊q⌋ then ⌊q⌋ + 1
  else if ⌊q⌋ % 2 = 0 then ⌊q⌋ else ⌊q⌋ + 1

/-- The f-string format value:.2f. -/
def fmt2 (q : ℚ) : String :=
  let n := roundHalfEven (q * 100)
  let m := n.natAbs
  (if n < 0 then "-" else "") ++ toString (m / 100) ++ "." ++
    (if m % 100 < 10 then "0" else "") ++ toString (m % 100)

/-- The skip message for a too-short duration (src/main.py line 180). -/
def skipShortMsg (d trim : ℚ) : String :=
  "Duration " ++ fmt2 d ++ "s is shorter than trim " ++ fmt2 trim ++ "s"

/-- result.stderr.strip() or "Unknown ffmpeg error" (line 200). -/
def errorText (stderr : String) : String :=
  if stderr.trim = "" then "Unknown ffmpeg error" else stderr.trim

/-- What one loop iteration of Worker.run produces beyond the events:
whether the ffmpeg trimmer process was spawned. -/
structure JobResult where
  events : List Event
  invoked : Bool
deriving DecidableEq, Repr

/-- The part of the loop body of Worker.run from the output-directory
step on (src/main.py lines 191-208): the pre-existing-output skip,
then the ffmpeg invocation and the interpretation of its exit code.
The mkdir call has no observable event.  `pre` carries the events
already emitted by the probe phase of the same iteration. -/
def trimPhase (ow : Bool) (idx0 : Nat) (job : FileJob) (env : JobEnv) (pre : List Event) : JobResult :=
  if env.outputExists && !ow then
    { events := pre ++ [.progress idx0 .Skipped "Output exists and overwrite is disabled",
        .log ("Skipping " ++ pathStr job.output_path ++ ": Output exists and overwrite is disabled")],
      invoked := false }
  else if env.returncode ≠ 0 then
    { events := pre ++ [.progress idx0 .Failed (errorText env.stderr),
        .log ("ffmpeg failed for " ++ pathStr job.input_path ++ ": " ++ errorText env.stderr)],
      invoked := true }
  else
    { events := pre ++ (if env.stderr.trim ≠ "" then [.log env.stderr.trim] else []) ++
        [.progress idx0 .Done ""],
      invoked := true }

/-- The loop body of Worker.run after the Processing event
(src/main.py lines 177-208): probe, the short-duration skip, then
`trimPhase`. -/
def processJob (trim : ℚ) (ow : Bool) (idx0 : Nat) (job : FileJob) (env : JobEnv) : JobResult :=
  match probe_duration job.input_path env.probe with
  | (some duration, probeLogs) =>
    if duration ≤ trim + 1/100 then
      { events := probeLogs ++ [.progress idx0 .Skipped (skipShortMsg duration trim),
          .log ("Skipping " ++ pathStr job.input_path ++ ": " ++ skipShortMsg duration trim)],
        invoked := false }
    else trimPhase ow idx0 job env probeLogs
  | (none, probeLogs) =>
    trimPhase ow idx0 job env
      (probeLogs ++ [.log ("Warning: proceeding without duration info for " ++ pathStr job.input_path ++ ".")])

/-- The loop of Worker.run (src/main.py lines 169-208).  `idx0` is the
zero-based row of the next job (`index - 1` in the source, whose
`index` is one-based), `cancel` the value of the _cancel flag at the
loop-head check of that iteration. -/
def runAux (trim : ℚ) (ow : Bool) (total : Nat) : Nat → Bool → List (FileJob × JobEnv) → List Event
  | _, _, [] => []
  | idx0, cancel, (job, env) :: rest =>
    if cancel then [.progress idx0 .Canceled "Canceled by user"]
    else
      .overall (idx0 + 1) total :: .progress idx0 .Processing "" ::
        ((processJob trim ow idx0 job env).events ++
          runAux trim ow total (idx0 + 1) (cancel || env.cancelDuring) rest)

/-- Worker.run (src/main.py lines 166-211): the loop, then the final
aggregate event and the finished signal.  `initialCancel` is the value
of the _cancel flag when the run starts. -/
def runWorker (trim : ℚ) (ow : Bool) (initialCancel : Bool) (jobs : List (FileJob × JobEnv)) : List Event :=
  runAux trim ow jobs.length 0 initialCancel jobs ++
    [.overall jobs.length jobs.length, .finished]

/-- One directory-listing entry as MainWindow._scan_files sees it. -/
structure DirEntry where
  path : PyPath
  isFile : Bool
deriving DecidableEq, Repr

/-- MainWindow._scan_files (src/main.py lines 348-358) on the listing
produced by rglob or iterdir: keep regular files whose suffix matches
.mp4 case-insensitively, then sort by full path (pathlib sorts paths
by their parts tuple, which is the lexicographic order on parts). -/
def scan_files (entries : List DirEntry) : List PyPath :=
  List.insertionSort (· ≤ ·)
    ((entries.filter (fun e => e.isFile && is_mp4 e.path)).map (fun e => e.path))

/-- A terminal job status: one the engine never transitions away
from within a run. -/
def isTerminal (s : Status) : Prop := s = .Skipped ∨ s = .Failed ∨ s = .Done

/-- The number of Canceled progress events in a trace. -/
def canceledCount (evs : List Event) : Nat :=
  (evs.filter fun e =>
    match e with
    | .progress _ .Canceled _ => true
    | _ => false).length

/-! ### Facts about a single job iteration -/

/-- The probe emits only log events. -/
theorem probe_duration_logs (input : PyPath) (r : ProbeResult) :
    ∀ x ∈ (probe_duration input r).2, ∃ t, x = Event.log t := by
  cases r <;> simp [probe_duration]

/-- Every event the trim phase emits beyond `pre` is a log line or a
progress event at this row with a terminal, non-Canceled status. -/
theorem trimPhase_shape (ow : Bool) (idx0 : Nat) (job : FileJob) (env : JobEnv) (pre : List Event)
    (hpre : ∀ e ∈ pre, (∃ t, e = Event.log t) ∨
      ∃ s m, e = Event.progress idx0 s m ∧ isTerminal s) :
    ∀ e ∈ (trimPhase ow idx0 job env pre).events,
      (∃ t, e = Event.log t) ∨ ∃ s m, e = Event.progress idx0 s m ∧ isTerminal s := by
  intro e he
  unfold trimPhase at he
  split at he
  · simp only [List.mem_append, List.mem_cons, List.not_mem_nil, or_false] at he
    rcases he with h | h | h
    · exact hpre e h
    · exact Or.inr ⟨_, _, h, Or.inl rfl⟩
    · exact Or.inl ⟨_, h⟩
  · split at he
    · simp only [List.mem_append, List.mem_cons, List.not_mem_nil, or_false] at he
      rcases he with h | h | h
      · exact hpre e h
      · exact Or.inr ⟨_, _, h, Or.inr (Or.inl rfl)⟩
      · exact Or.inl ⟨_, h⟩
    · simp only [List.append_assoc, List.mem_append, List.mem_cons, List.not_mem_nil,
        or_false] at he
      rcases he with h | h | h
      · exact hpre e h
      · split at h
        · simp only [List.mem_cons, List.not_mem_nil, or_false] at h
          exact Or.inl ⟨_, h⟩
        · exact absurd h (List.not_mem_nil e)
      · exact Or.inr ⟨_, _, h, Or.inr (Or.inr rfl)⟩

/-- Unfolding of processJob when the probe parses a duration. -/
theorem processJob_eq_some (trim : ℚ) (ow : Bool) (idx0 : Nat) (job : FileJob) (env : JobEnv)
    (d : ℚ) (logs : List Event)
    (h : probe_duration job.input_path env.probe = (some d, logs)) :
    processJob trim ow idx0 job env =
      if d ≤ trim + 1/100 then
        { events := logs ++ [.progress idx0 .Skipped (skipShortMsg d trim),
            .log ("Skipping " ++ pathStr job.input_path ++ ": " ++ skipShortMsg d trim)],
          invoked := false }
      else trimPhase ow idx0 job env logs := by
  unfold processJob
  rw [h]

/-- Unfolding of processJob when the probe fails. -/
theorem processJob_eq_none (trim : ℚ) (ow : Bool) (idx0 : Nat) (job : FileJob) (env : JobEnv)
    (logs : List Event)
    (h : probe_duration job.input_path env.probe = (none, logs)) :
    processJob trim ow idx0 job env =
      trimPhase ow idx0 job env
        (logs ++ [.log ("Warning: proceeding without duration info for " ++ pathStr job.input_path ++ ".")]) := by
  unfold processJob
  rw [h]

/-- The probe log list of a probe outcome pair. -/
theorem probe_pair_logs (input : PyPath) (r : ProbeResult) (dur : Option ℚ) (logs : List Event)
    (h : probe_duration input r = (dur, logs)) :
    ∀ x ∈ logs, ∃ t, x = Event.log t := by
  have hl := probe_duration_logs input r
  rw [h] at hl
  exact hl

/-- Every event a job body emits is a log line or a progress event at
this row with a terminal, non-Canceled status. -/
theorem processJob_shape (trim : ℚ) (ow : Bool) (idx0 : Nat) (job : FileJob) (env : JobEnv) :
    ∀ e ∈ (processJob trim ow idx0 job env).events,
      (∃ t, e = Event.log t) ∨ ∃ s m, e = Event.progress idx0 s m ∧ isTerminal s := by
  intro e he
  rcases hpr : probe_duration job.input_path env.probe with ⟨_ | d, logs⟩
  · rw [processJob_eq_none trim ow idx0 job env logs hpr] at he
    refine trimPhase_shape ow idx0 job env _ ?_ e he
    intro x hx
    rcases List.mem_append.1 hx with h | h
    · exact Or.inl (probe_pair_logs job.input_path env.probe none logs hpr x h)
    · simp only [List.mem_cons, List.not_mem_nil, or_false] at h
      exact Or.inl ⟨_, h⟩
  · rw [processJob_eq_some trim ow idx0 job env d logs hpr] at he
    split at he
    · simp only [List.mem_append, List.mem_cons, List.not_mem_nil, or_false] at he
      rcases he with h | h | h
      · exact Or.inl (probe_pair_logs job.input_path env.probe (some d) logs hpr e h)
      · exact Or.inr ⟨_, _, h, Or.inl rfl⟩
      · exact Or.inl ⟨_, h⟩
    · refine trimPhase_shape ow idx0 job env _ ?_ e he
      intro x hx
      exact Or.inl (probe_pair_logs job.input_path env.probe (some d) logs hpr x hx)

/-- The trim phase always emits a terminal progress event at its row. -/
theorem trimPhase_terminal (ow : Bool) (idx0 : Nat) (job : FileJob) (env : JobEnv) (pre : List Event) :
    ∃ s m, Event.progress idx0 s m ∈ (trimPhase ow idx0 job env pre).events ∧ isTerminal s := by
  unfold trimPhase
  split
  · exact ⟨.Skipped, "Output exists and overwrite is disabled", by simp, Or.inl rfl⟩
  · split
    · exact ⟨.Failed, errorText env.stderr, by simp, Or.inr (Or.inl rfl)⟩
    · exact ⟨.Done, "", by simp, Or.inr (Or.inr rfl)⟩

/-- Every job body emits a terminal progress event at its row. -/
theorem processJob_terminal (trim : ℚ) (ow : Bool) (idx0 : Nat) (job : FileJob) (env : JobEnv) :
    ∃ s m, Event.progress idx0 s m ∈ (processJob trim ow idx0 job env).events ∧ isTerminal s := by
  rcases hpr : probe_duration job.input_path env.probe with ⟨_ | d, logs⟩
  · rw [processJob_eq_none trim ow idx0 job env logs hpr]
    exact trimPhase_terminal ow idx0 job env _
  · rw [processJob_eq_some trim ow idx0 job env d logs hpr]
    split
    · exact ⟨.Skipped, skipShortMsg d trim, by simp, Or.inl rfl⟩
    · exact trimPhase_terminal ow idx0 job env _

/-! ### The run loop -/

/-- The events of an uncanceled run over a job list, first row idx0:
one block per job, in order. -/
def blocks (trim : ℚ) (ow : Bool) (total : Nat) : Nat → List (FileJob × JobEnv) → List Event
  | _, [] => []
  | idx0, (job, env) :: rest =>
    .overall (idx0 + 1) total :: .progress idx0 .Processing "" ::
      ((processJob trim ow idx0 job env).events ++ blocks trim ow total (idx0 + 1) rest)

/-- Blocks of an appended job list split at the boundary. -/
theorem blocks_append (trim : ℚ) (ow : Bool) (total : Nat) :
    ∀ (L1 L2 : List (FileJob × JobEnv)) (idx0 : Nat),
      blocks trim ow total idx0 (L1 ++ L2) =
        blocks trim ow total idx0 L1 ++ blocks trim ow total (idx0 + L1.length) L2 := by
  intro L1
  induction L1 with
  | nil => intro L2 idx0; simp [blocks]
  | cons p rest ih =>
    intro L2 idx0
    obtain ⟨job, env⟩ := p
    simp only [List.cons_append, blocks, List.length_cons]
    rw [show rest.append L2 = rest ++ L2 from rfl, ih L2 (idx0 + 1)]
    have h1 : idx0 + 1 + rest.length = idx0 + (rest.length + 1) := by omega
    rw [h1]
    simp [List.append_assoc]

/-- Every event in the blocks of a job list is a log, an aggregate
event, or a progress event whose row lies in the covered range and
whose status is Processing or terminal — never Canceled. -/
theorem blocks_shape (trim : ℚ) (ow : Bool) (total : Nat) :
    ∀ (L : List (FileJob × JobEnv)) (idx0 : Nat), ∀ e ∈ blocks trim ow total idx0 L,
      (∃ t, e = Event.log t) ∨ (∃ c t2, e = Event.overall c t2) ∨
        ∃ r s m, e = Event.progress r s m ∧ idx0 ≤ r ∧ r < idx0 + L.length ∧
          (s = .Processing ∨ isTerminal s) := by
  intro L
  induction L with
  | nil => intro idx0 e he; simp [blocks] at he
  | cons p rest ih =>
    intro idx0 e he
    obtain ⟨job, env⟩ := p
    simp only [blocks, List.mem_cons, List.mem_append] at he
    rcases he with h | h | h | h
    · exact Or.inr (Or.inl ⟨_, _, h⟩)
    · exact Or.inr (Or.inr ⟨idx0, .Processing, "", h, Nat.le_refl _, by simp, Or.inl rfl⟩)
    · rcases processJob_shape trim ow idx0 job env e h with h2 | ⟨s, m, he2, hs⟩
      · exact Or.inl h2
      · exact Or.inr (Or.inr ⟨idx0, s, m, he2, Nat.le_refl _, by simp, Or.inr hs⟩)
    · rcases ih (idx0 + 1) e h with h2 | h2 | ⟨r, s, m, he2, hr1, hr2, hs⟩
      · exact Or.inl h2
      · exact Or.inr (Or.inl h2)
      · refine Or.inr (Or.inr ⟨r, s, m, he2, ?_, ?_, hs⟩)
        · omega
        · simp only [List.length_cons]; omega

/-- Each job of the list gets a terminal progress event at its row in
the blocks. -/
theorem blocks_terminal (trim : ℚ) (ow : Bool) (total : Nat) :
    ∀ (L : List (FileJob × JobEnv)) (idx0 r : Nat), r < L.length →
      ∃ s m, Event.progress (idx0 + r) s m ∈ blocks trim ow total idx0 L ∧ isTerminal s := by
  intro L
  induction L with
  | nil => intro idx0 r hr; simp at hr
  | cons p rest ih =>
    intro idx0 r hr
    obtain ⟨job, env⟩ := p
    cases r with
    | zero =>
      obtain ⟨s, m, hm, hs⟩ := processJob_terminal trim ow idx0 job env
      exact ⟨s, m, by simp [blocks, hm], hs⟩
    | succ r' =>
      have hr' : r' < rest.length := by simpa using Nat.lt_of_succ_lt_succ hr
      obtain ⟨s, m, hm, hs⟩ := ih (idx0 + 1) r' hr'
      refine ⟨s, m, ?_, hs⟩
      have : idx0 + (r' + 1) = idx0 + 1 + r' := by omega
      rw [this]
      simp [blocks, hm]

/-- The events of the job in the middle of a list appear among the
blocks of the whole list, at the row matching its position. -/
theorem blocks_middle (trim : ℚ) (ow : Bool) (total : Nat)
    (pre : List (FileJob × JobEnv)) (x : FileJob × JobEnv) (post : List (FileJob × JobEnv))
    (idx0 : Nat) :
    ∀ e ∈ (processJob trim ow (idx0 + pre.length) x.1 x.2).events,
      e ∈ blocks trim ow total idx0 (pre ++ x :: post) := by
  intro e he
  rw [blocks_append]
  refine List.mem_append.2 (Or.inr ?_)
  obtain ⟨job, env⟩ := x
  simp [blocks, he]

/-- A loop entered with the cancel flag already set emits exactly one
Canceled event for the row of the next job, or nothing when the list
is exhausted. -/
theorem runAux_cancelTrue (trim : ℚ) (ow : Bool) (total : Nat) :
    ∀ (L : List (FileJob × JobEnv)) (idx0 : Nat),
      runAux trim ow total idx0 true L =
        if L.isEmpty then [] else [.progress idx0 .Canceled "Canceled by user"] := by
  intro L idx0
  cases L with
  | nil => simp [runAux]
  | cons p rest => obtain ⟨job, env⟩ := p; simp [runAux]

/-- A run with no cancellation request produces exactly the blocks of
its job list. -/
theorem runAux_noCancel (trim : ℚ) (ow : Bool) (total : Nat) :
    ∀ (L : List (FileJob × JobEnv)) (idx0 : Nat),
      (∀ p ∈ L, p.2.cancelDuring = false) →
      runAux trim ow total idx0 false L = blocks trim ow total idx0 L := by
  intro L
  induction L with
  | nil => intro idx0 _; simp [runAux, blocks]
  | cons p rest ih =>
    intro idx0 hnc
    obtain ⟨job, env⟩ := p
    have henv : env.cancelDuring = false := hnc (job, env) (List.mem_cons_self _ _)
    simp only [runAux, blocks, if_neg (Bool.false_ne_true), henv, Bool.or_false]
    rw [ih (idx0 + 1) (fun q hq => hnc q (List.mem_cons_of_mem _ hq))]

/-- A run in which cancellation is requested while the job at offset
`pre.length` processes: the jobs through that one run normally, then
the loop-head check emits one Canceled event for the next row — when a
next job exists — and stops. -/
theorem runAux_cancelAt (trim : ℚ) (ow : Bool) (total : Nat) :
    ∀ (pre : List (FileJob × JobEnv)) (item : FileJob × JobEnv)
      (post : List (FileJob × JobEnv)) (idx0 : Nat),
      (∀ p ∈ pre, p.2.cancelDuring = false) →
      item.2.cancelDuring = true →
      runAux trim ow total idx0 false (pre ++ item :: post) =
        blocks trim ow total idx0 (pre ++ [item]) ++
          (if post.isEmpty then []
           else [.progress (idx0 + pre.length + 1) .Canceled "Canceled by user"]) := by
  intro pre
  induction pre with
  | nil =>
    intro item post idx0 _ hitem
    obtain ⟨job, env⟩ := item
    have henv : env.cancelDuring = true := hitem
    simp only [List.nil_append, runAux, blocks, if_neg (Bool.false_ne_true), henv,
      Bool.false_or, List.length_nil]
    rw [runAux_cancelTrue trim ow total post (idx0 + 1)]
    cases hpost : post.isEmpty <;> simp [hpost]
  | cons p rest ih =>
    intro item post idx0 hpre hitem
    obtain ⟨job, env⟩ := p
    have henv : env.cancelDuring = false := hpre (job, env) (List.mem_cons_self _ _)
    simp only [List.cons_append, runAux, blocks, if_neg (Bool.false_ne_true), henv,
      Bool.or_false, List.length_cons]
    rw [show (rest.append (item :: post)) = rest ++ item :: post from rfl,
      ih item post (idx0 + 1) (fun q hq => hpre q (List.mem_cons_of_mem _ hq)) hitem]
    have h1 : idx0 + 1 + rest.length + 1 = idx0 + (rest.length + 1) + 1 := by omega
    rw [h1]
    simp [List.append_assoc]

/-- The loop itself never emits the finished signal. -/
theorem runAux_no_finished (trim : ℚ) (ow : Bool) (total : Nat) :
    ∀ (L : List (FileJob × JobEnv)) (idx0 : Nat) (c : Bool),
      Event.finished ∉ runAux trim ow total idx0 c L := by
  intro L
  induction L with
  | nil => intro idx0 c; simp [runAux]
  | cons p rest ih =>
    intro idx0 c h
    obtain ⟨job, env⟩ := p
    simp only [runAux] at h
    split at h
    · simp at h
    · simp only [List.mem_cons, List.mem_append] at h
      rcases h with h | h | h | h
      · exact Event.noConfusion h
      · exact Event.noConfusion h
      · rcases processJob_shape trim ow idx0 job env _ h with ⟨t, ht⟩ | ⟨s, m, hm, _⟩
        · exact Event.noConfusion ht
        · exact Event.noConfusion hm
      · exact ih (idx0 + 1) _ h

/-- canceledCount distributes over concatenation. -/
theorem canceledCount_append (a b : List Event) :
    canceledCount (a ++ b) = canceledCount a + canceledCount b := by
  simp [canceledCount, List.filter_append]

/-- A trace with no Canceled progress event has count zero. -/
theorem canceledCount_eq_zero (evs : List Event)
    (h : ∀ r m, Event.progress r .Canceled m ∉ evs) : canceledCount evs = 0 := by
  unfold canceledCount
  rw [List.length_eq_zero, List.filter_eq_nil_iff]
  intro e he
  cases e with
  | progress r s m =>
    cases s with
    | Canceled => exact absurd he (h r m)
    | Processing => simp
    | Skipped => simp
    | Failed => simp
    | Done => simp
  | overall c t => simp
  | log t => simp
  | finished => simp

/-- The blocks of a job list contain no Canceled event. -/
theorem blocks_no_canceled (trim : ℚ) (ow : Bool) (total : Nat)
    (L : List (FileJob × JobEnv)) (idx0 : Nat) :
    ∀ r m, Event.progress r .Canceled m ∉ blocks trim ow total idx0 L := by
  intro r m hmem
  rcases blocks_shape trim ow total L idx0 _ hmem with ⟨t, ht⟩ | ⟨c, t2, ht⟩ | ⟨r', s, m', he, _, _, hs⟩
  · exact Event.noConfusion ht
  · exact Event.noConfusion ht
  · have h2 := he
    simp only [Event.progress.injEq] at h2
    rcases hs with h | h | h | h <;> rw [← h2.2.1] at h <;> exact Status.noConfusion h

/-- A job body emits no Canceled event. -/
theorem processJob_no_canceled (trim : ℚ) (ow : Bool) (idx0 : Nat) (job : FileJob) (env : JobEnv) :
    ∀ r m, Event.progress r .Canceled m ∉ (processJob trim ow idx0 job env).events := by
  intro r m hmem
  rcases processJob_shape trim ow idx0 job env _ hmem with ⟨t, ht⟩ | ⟨s, m', he, hs⟩
  · exact Event.noConfusion ht
  · have h2 := he
    simp only [Event.progress.injEq] at h2
    rcases hs with h | h | h <;> rw [← h2.2.1] at h <;> exact Status.noConfusion h

/-- The loop emits at most one Canceled event. -/
theorem runAux_canceledCount_le_one (trim : ℚ) (ow : Bool) (total : Nat) :
    ∀ (L : List (FileJob × JobEnv)) (idx0 : Nat) (c : Bool),
      canceledCount (runAux trim ow total idx0 c L) ≤ 1 := by
  intro L
  induction L with
  | nil => intro idx0 c; simp [runAux, canceledCount]
  | cons p rest ih =>
    intro idx0 c
    obtain ⟨job, env⟩ := p
    cases c with
    | true =>
      rw [runAux_cancelTrue]
      split <;> simp [canceledCount]
    | false =>
      simp only [runAux, if_neg (Bool.false_ne_true), Bool.false_or]
      have h0 : canceledCount (processJob trim ow idx0 job env).events = 0 :=
        canceledCount_eq_zero _ (processJob_no_canceled trim ow idx0 job env)
      simp only [canceledCount, List.filter_cons, List.filter_append] at h0 ⊢
      rw [List.length_eq_zero] at h0
      simp only [h0]
      simpa [canceledCount] using ih (idx0 + 1) env.cancelDuring

/-- Without any cancellation request the loop emits no Canceled
event. -/
theorem runAux_canceledCount_zero (trim : ℚ) (ow : Bool) (total : Nat)
    (L : List (FileJob × JobEnv)) (idx0 : Nat)
    (h : ∀ p ∈ L, p.2.cancelDuring = false) :
    canceledCount (runAux trim ow total idx0 false L) = 0 := by
  rw [runAux_noCancel trim ow total L idx0 h]
  exact canceledCount_eq_zero _ (blocks_no_canceled trim ow total L idx0)

/-! ### Claim theorems -/

/-- Unfolding of pyStemSuffix when the name has a dot. -/
theorem pyStemSuffix_eq_some (name : String) (i : Nat)
    (h : rfindDotAux name.data 0 = some i) :
    pyStemSuffix name =
      if 0 < i ∧ i < name.data.length - 1 then
        (String.mk (name.data.take i), String.mk (name.data.drop i))
      else (name, "") := by
  unfold pyStemSuffix
  rw [h]

/-- Unfolding of pyStemSuffix when the name has no dot. -/
theorem pyStemSuffix_eq_none (name : String)
    (h : rfindDotAux name.data 0 = none) :
    pyStemSuffix name = (name, "") := by
  unfold pyStemSuffix
  rw [h]

/-- Stem and suffix recombine to the file name. -/
theorem pyStem_append_pySuffix (name : String) :
    pyStem name ++ pySuffix name = name := by
  unfold pyStem pySuffix
  cases h : rfindDotAux name.data 0 with
  | none =>
    rw [pyStemSuffix_eq_none name h]
    simp
  | some i =>
    rw [pyStemSuffix_eq_some name i h]
    by_cases hc : 0 < i ∧ i < name.data.length - 1
    · rw [if_pos hc]
      apply String.ext
      rw [String.data_append]
      exact List.take_append_drop i name.data
    · rw [if_neg hc]
      simp

/-- C3: build_output_name returns the input file name exactly when
overwriting, and a name different from the input file name when not
overwriting, for every formatted trim-offset string (hence for every
positive trim offset). -/
theorem build_output_name_no_collision (p : PyPath) (trimStr : String) :
    build_output_name p trimStr true = pathName p ∧
    build_output_name p trimStr false ≠ pathName p := by
  constructor
  · simp [build_output_name]
  · unfold build_output_name
    simp only [Bool.false_eq_true, if_false]
    intro h
    have h5 : ("_trim" : String).length = 5 := rfl
    have hs1 : ("s" : String).length = 1 := rfl
    have hlen := congrArg String.length h
    simp only [String.length_append, h5, hs1] at hlen
    have hname := congrArg String.length (pyStem_append_pySuffix (pathName p))
    simp only [String.length_append] at hname
    omega

/-- Witness for C3 at a concrete file name. -/
theorem build_output_name_no_collision_witness :
    build_output_name ["video.mp4"] "2" true = pathName ["video.mp4"] ∧
    build_output_name ["video.mp4"] "2" false ≠ pathName ["video.mp4"] :=
  build_output_name_no_collision ["video.mp4"] "2"

/-- C6: locate_ffmpeg returns the bundled pair when both bundled
binaries exist; otherwise the search-path pair when both names
resolve; in every other case it returns none — never a partial
pair. -/
theorem locate_ffmpeg_cases (app_dir : PyPath) (env : LocateEnv) :
    (env.localFfmpegExists = true → env.localFfprobeExists = true →
      locate_ffmpeg app_dir env = some
        ⟨app_dir ++ ["bin", if env.isWindows then "ffmpeg.exe" else "ffmpeg"],
         app_dir ++ ["bin", if env.isWindows then "ffprobe.exe" else "ffprobe"]⟩) ∧
    (¬(env.localFfmpegExists = true ∧ env.localFfprobeExists = true) →
      ∀ f p, env.whichFfmpeg = some f → env.whichFfprobe = some p →
        locate_ffmpeg app_dir env = some ⟨f, p⟩) ∧
    (¬(env.localFfmpegExists = true ∧ env.localFfprobeExists = true) →
      (env.whichFfmpeg = none ∨ env.whichFfprobe = none) →
      locate_ffmpeg app_dir env = none) := by
  refine ⟨?_, ?_, ?_⟩
  · intro h1 h2
    simp [locate_ffmpeg, h1, h2]
  · intro hno f p hf hp
    have hb : (env.localFfmpegExists && env.localFfprobeExists) = false := by
      cases hm : env.localFfmpegExists <;> cases hq : env.localFfprobeExists <;> simp_all
    simp [locate_ffmpeg, hb, hf, hp]
  · intro hno hw
    have hb : (env.localFfmpegExists && env.localFfprobeExists) = false := by
      cases hm : env.localFfmpegExists <;> cases hq : env.localFfprobeExists <;> simp_all
    rcases hw with h | h
    · simp [locate_ffmpeg, hb, h]
    · cases hf : env.whichFfmpeg <;> simp [locate_ffmpeg, hb, h, hf]

/-- Witness for C6: the bundled pair on a posix system. -/
theorem locate_ffmpeg_cases_witness :
    locate_ffmpeg ["app"] ⟨false, true, true, none, none⟩ =
      some ⟨["app", "bin", "ffmpeg"], ["app", "bin", "ffprobe"]⟩ := by
  have h := (locate_ffmpeg_cases ["app"] ⟨false, true, true, none, none⟩).1 rfl rfl
  simpa using h

/-- C7: on every execution path — normal exhaustion or early exit via
cancellation — the run ends with a final aggregate event
(total, total) followed by the finished signal, and the finished
signal is emitted exactly once. -/
theorem run_final_events (trim : ℚ) (ow : Bool) (ic : Bool) (jobs : List (FileJob × JobEnv)) :
    ∃ es, runWorker trim ow ic jobs =
        es ++ [.overall jobs.length jobs.length, .finished] ∧
      Event.finished ∉ es :=
  ⟨runAux trim ow jobs.length 0 ic jobs, rfl,
    runAux_no_finished trim ow jobs.length jobs 0 ic⟩

/-- C10: every run emits at most one Canceled event, and a run with no
cancellation request emits none. -/
theorem canceled_at_most_once (trim : ℚ) (ow : Bool) (ic : Bool) (jobs : List (FileJob × JobEnv)) :
    canceledCount (runWorker trim ow ic jobs) ≤ 1 ∧
    (ic = false → (∀ p ∈ jobs, p.2.cancelDuring = false) →
      canceledCount (runWorker trim ow ic jobs) = 0) := by
  constructor
  · unfold runWorker
    rw [canceledCount_append]
    have h1 := runAux_canceledCount_le_one trim ow jobs.length jobs 0 ic
    have h2 : canceledCount [Event.overall jobs.length jobs.length, Event.finished] = 0 := by
      simp [canceledCount]
    omega
  · intro hic hnc
    subst hic
    unfold runWorker
    rw [canceledCount_append, runAux_canceledCount_zero trim ow jobs.length jobs 0 hnc]
    simp [canceledCount]

/-- Witness for C10: a concrete cancellation-free run has no Canceled
event. -/
theorem canceled_at_most_once_witness :
    canceledCount (runWorker 2 false false []) = 0 :=
  (canceled_at_most_once 2 false false []).2 rfl (by simp)

/-- C8: discovery is deterministic — the same directory listing gives
the identical ordered output — and the output is exactly the regular
.mp4 files (case-insensitive extension), sorted by full path. -/
theorem scan_files_deterministic (entries : List DirEntry) :
    scan_files entries = scan_files entries ∧
    (scan_files entries).Sorted (· ≤ ·) ∧
    List.Perm (scan_files entries)
      ((entries.filter (fun e => e.isFile && is_mp4 e.path)).map (fun e => e.path)) := by
  refine ⟨rfl, ?_, ?_⟩
  · unfold scan_files
    exact List.sorted_insertionSort _ _
  · unfold scan_files
    exact List.perm_insertionSort _ _

/-- The two Skipped messages can never coincide. -/
theorem skipShortMsg_ne_exists (d t : ℚ) :
    skipShortMsg d t ≠ "Output exists and overwrite is disabled" := by
  unfold skipShortMsg
  intro h
  have h2 := congrArg String.data h
  simp only [String.data_append] at h2
  simp [List.cons_append] at h2

/-- The trim phase never emits the short-duration skip event. -/
theorem trimPhase_no_short_skip (ow : Bool) (idx0 : Nat) (job : FileJob) (env : JobEnv)
    (d t : ℚ) :
    Event.progress idx0 .Skipped (skipShortMsg d t) ∉ (trimPhase ow idx0 job env []).events := by
  intro h
  rcases trimPhase_shape ow idx0 job env [] (by simp) _ h with ⟨t2, ht⟩ | ⟨s, m, he, hs⟩
  · exact Event.noConfusion ht
  · have h2 := he
    simp only [Event.progress.injEq] at h2
    -- identify which branch produced the event, by its message
    clear he
    revert h
    unfold trimPhase
    split
    · simp only [List.nil_append, List.mem_cons, List.not_mem_nil, or_false]
      intro h
      rcases h with h | h
      · simp only [Event.progress.injEq] at h
        exact skipShortMsg_ne_exists d t h.2.2
      · exact Event.noConfusion h
    · split
      · simp only [List.nil_append, List.mem_cons, List.not_mem_nil, or_false]
        intro h
        rcases h with h | h
        · simp only [Event.progress.injEq] at h
          exact Status.noConfusion h.2.1
        · exact Event.noConfusion h
      · simp only [List.nil_append, List.mem_append, List.mem_cons, List.not_mem_nil, or_false]
        intro h
        rcases h with h | h
        · split at h
          · simp only [List.mem_cons, List.not_mem_nil, or_false] at h
            exact Event.noConfusion h
          · exact absurd h (List.not_mem_nil _)
        · simp only [Event.progress.injEq] at h
          exact Status.noConfusion h.2.1

/-- When the pre-existing-output skip does not apply, the trim phase
spawns the trimmer process. -/
theorem trimPhase_invoked (ow : Bool) (idx0 : Nat) (job : FileJob) (env : JobEnv)
    (pre : List Event) (h : (env.outputExists && !ow) = false) :
    (trimPhase ow idx0 job env pre).invoked = true := by
  unfold trimPhase
  rw [h]
  simp only [Bool.false_eq_true, if_false]
  split <;> rfl

/-- C2: for a job whose probe succeeds with duration d, the engine
skips the job — emitting the Skipped event whose message cites both
the probed duration and the trim offset, without spawning the
trimmer — exactly when d ≤ trim + 0.01; in particular d = trim skips,
and d = trim + 0.02 proceeds to the trimmer whenever the
pre-existing-output skip does not apply. -/
theorem skip_short_duration (trim : ℚ) (ow : Bool) (idx0 : Nat) (job : FileJob)
    (env : JobEnv) (d : ℚ) (hp : env.probe = .ok d) :
    ((Event.progress idx0 .Skipped (skipShortMsg d trim) ∈
        (processJob trim ow idx0 job env).events ∧
      (processJob trim ow idx0 job env).invoked = false) ↔ d ≤ trim + 1/100) ∧
    (d = trim →
      Event.progress idx0 .Skipped (skipShortMsg d trim) ∈
        (processJob trim ow idx0 job env).events ∧
      (processJob trim ow idx0 job env).invoked = false) ∧
    (d = trim + 2/100 →
      Event.progress idx0 .Skipped (skipShortMsg d trim) ∉
        (processJob trim ow idx0 job env).events ∧
      ((env.outputExists && !ow) = false →
        (processJob trim ow idx0 job env).invoked = true)) := by
  have hpr : probe_duration job.input_path env.probe = (some d, []) := by
    rw [hp, probe_duration]
  rw [processJob_eq_some trim ow idx0 job env d [] hpr]
  by_cases hle : d ≤ trim + 1/100
  · rw [if_pos hle]
    refine ⟨⟨fun _ => hle, fun _ => ⟨by simp, rfl⟩⟩, fun _ => ⟨by simp, rfl⟩, ?_⟩
    intro heq
    exfalso
    rw [heq] at hle
    linarith
  · rw [if_neg hle]
    refine ⟨⟨?_, fun hc => absurd hc hle⟩, ?_, ?_⟩
    · intro hmem
      exact absurd hmem.1 (trimPhase_no_short_skip ow idx0 job env d trim)
    · intro heq
      exfalso
      apply hle
      rw [heq]
      linarith
    · intro _
      exact ⟨trimPhase_no_short_skip ow idx0 job env d trim,
        fun hb => trimPhase_invoked ow idx0 job env [] hb⟩

/-- Witness for C2: duration 1 against offset 2 skips with the message
citing both values and without spawning the trimmer. -/
theorem skip_short_duration_witness :
    Event.progress 0 .Skipped (skipShortMsg 1 2) ∈
      (processJob 2 false 0 ⟨["a.mp4"], ["o", "a.mp4"], "a.mp4"⟩
        ⟨.ok 1, false, 0, "", false⟩).events ∧
    (processJob 2 false 0 ⟨["a.mp4"], ["o", "a.mp4"], "a.mp4"⟩
      ⟨.ok 1, false, 0, "", false⟩).invoked = false :=
  ((skip_short_duration 2 false 0 ⟨["a.mp4"], ["o", "a.mp4"], "a.mp4"⟩
    ⟨.ok 1, false, 0, "", false⟩ 1 rfl).1).mpr (by norm_num)

/-- Events already emitted before the trim phase stay in its trace. -/
theorem trimPhase_pre_mem (ow : Bool) (idx0 : Nat) (job : FileJob) (env : JobEnv)
    (pre : List Event) :
    ∀ e ∈ pre, e ∈ (trimPhase ow idx0 job env pre).events := by
  intro e he
  unfold trimPhase
  split
  · exact List.mem_append_left _ he
  · split
    · exact List.mem_append_left _ he
    · exact List.mem_append_left _ (List.mem_append_left _ he)

/-- C5 amended: when the duration probe fails, the engine logs the
warning and proceeds past the duration gate; the trimmer is spawned
whenever the pre-existing-output skip does not apply. -/
theorem probe_failure_proceeds (trim : ℚ) (ow : Bool) (idx0 : Nat) (job : FileJob)
    (env : JobEnv) (logs : List Event)
    (h : probe_duration job.input_path env.probe = (none, logs)) :
    Event.log ("Warning: proceeding without duration info for " ++ pathStr job.input_path ++ ".") ∈
      (processJob trim ow idx0 job env).events ∧
    ((env.outputExists && !ow) = false →
      (processJob trim ow idx0 job env).invoked = true) := by
  rw [processJob_eq_none trim ow idx0 job env logs h]
  constructor
  · exact trimPhase_pre_mem ow idx0 job env _ _ (by simp)
  · exact fun hb => trimPhase_invoked ow idx0 job env _ hb

/-- Witness for the amended C5: a concrete probe failure still spawns
the trimmer when the output path is free. -/
theorem probe_failure_proceeds_witness :
    Event.log ("Warning: proceeding without duration info for " ++ pathStr ["b.mp4"] ++ ".") ∈
      (processJob 2 false 0 ⟨["b.mp4"], ["o", "b.mp4"], "b.mp4"⟩
        ⟨.empty, false, 1, "", false⟩).events ∧
    (processJob 2 false 0 ⟨["b.mp4"], ["o", "b.mp4"], "b.mp4"⟩
      ⟨.empty, false, 1, "", false⟩).invoked = true :=
  ⟨(probe_failure_proceeds 2 false 0 ⟨["b.mp4"], ["o", "b.mp4"], "b.mp4"⟩
      ⟨.empty, false, 1, "", false⟩ _ rfl).1,
   (probe_failure_proceeds 2 false 0 ⟨["b.mp4"], ["o", "b.mp4"], "b.mp4"⟩
      ⟨.empty, false, 1, "", false⟩ _ rfl).2 rfl⟩

/-- C5 as stated is refuted: here the probe fails, the warning is
logged, yet the trimmer is not invoked, because the output already
exists and overwrite is off. -/
theorem probe_failure_claim_counterexample :
    (processJob 2 false 0 ⟨["a.mp4"], ["o", "a.mp4"], "a.mp4"⟩
      ⟨.empty, true, 0, "", false⟩).invoked = false ∧
    Event.log "Warning: proceeding without duration info for a.mp4." ∈
      (processJob 2 false 0 ⟨["a.mp4"], ["o", "a.mp4"], "a.mp4"⟩
        ⟨.empty, true, 0, "", false⟩).events := by
  decide

/-- A nonzero exit code makes the trim phase emit Failed with the
stripped stderr (or the generic message). -/
theorem trimPhase_failed (ow : Bool) (idx0 : Nat) (job : FileJob) (env : JobEnv)
    (pre : List Event) (hskip : (env.outputExists && !ow) = false)
    (hrc : env.returncode ≠ 0) :
    Event.progress idx0 .Failed (errorText env.stderr) ∈
      (trimPhase ow idx0 job env pre).events := by
  unfold trimPhase
  rw [hskip]
  simp only [Bool.false_eq_true, if_false]
  rw [if_pos hrc]
  simp

/-- A job that passes the duration gate, finds no pre-existing output
conflict, and whose trimmer exits nonzero, emits Failed with the
process diagnostic text. -/
theorem processJob_failed (trim : ℚ) (ow : Bool) (idx0 : Nat) (job : FileJob) (env : JobEnv)
    (hdur : (probe_duration job.input_path env.probe).1 = none ∨
      ∃ d, (probe_duration job.input_path env.probe).1 = some d ∧ trim + 1/100 < d)
    (hskip : (env.outputExists && !ow) = false)
    (hrc : env.returncode ≠ 0) :
    Event.progress idx0 .Failed (errorText env.stderr) ∈
      (processJob trim ow idx0 job env).events := by
  rcases hpr : probe_duration job.input_path env.probe with ⟨dur, logs⟩
  rw [hpr] at hdur
  rcases hdur with h1 | ⟨d, h1, hlt⟩
  · have hd : dur = none := h1
    subst hd
    rw [processJob_eq_none trim ow idx0 job env logs hpr]
    exact trimPhase_failed ow idx0 job env _ hskip hrc
  · have hd : dur = some d := h1
    subst hd
    rw [processJob_eq_some trim ow idx0 job env d logs hpr]
    rw [if_neg (not_le.mpr hlt)]
    exact trimPhase_failed ow idx0 job env _ hskip hrc

/-- C4: in a run without cancellation, a job whose trimmer exits
nonzero gets a Failed event carrying the stripped stderr text (the
generic message when stderr strips to empty), and every job of the
run — before and after it — still reaches a terminal status. -/
theorem failure_isolated (trim : ℚ) (ow : Bool)
    (pre post : List (FileJob × JobEnv)) (job : FileJob) (env : JobEnv)
    (hall : ∀ p ∈ pre ++ (job, env) :: post, p.2.cancelDuring = false)
    (hdur : (probe_duration job.input_path env.probe).1 = none ∨
      ∃ d, (probe_duration job.input_path env.probe).1 = some d ∧ trim + 1/100 < d)
    (hskip : (env.outputExists && !ow) = false)
    (hrc : env.returncode ≠ 0) :
    Event.progress pre.length .Failed (errorText env.stderr) ∈
      runWorker trim ow false (pre ++ (job, env) :: post) ∧
    (env.stderr.trim = "" → errorText env.stderr = "Unknown ffmpeg error") ∧
    (env.stderr.trim ≠ "" → errorText env.stderr = env.stderr.trim) ∧
    ∀ r < (pre ++ (job, env) :: post).length,
      ∃ s m, Event.progress r s m ∈ runWorker trim ow false (pre ++ (job, env) :: post) ∧
        isTerminal s := by
  unfold runWorker
  rw [runAux_noCancel trim ow (pre ++ (job, env) :: post).length (pre ++ (job, env) :: post) 0 hall]
  refine ⟨?_, ?_, ?_, ?_⟩
  · apply List.mem_append_left
    have hm := processJob_failed trim ow (0 + pre.length) job env hdur hskip hrc
    have := blocks_middle trim ow (pre ++ (job, env) :: post).length pre (job, env) post 0 _ hm
    simpa using this
  · intro h
    simp [errorText, h]
  · intro h
    simp [errorText, h]
  · intro r hr
    obtain ⟨s, m, hm, hs⟩ :=
      blocks_terminal trim ow (pre ++ (job, env) :: post).length (pre ++ (job, env) :: post) 0 r hr
    exact ⟨s, m, List.mem_append_left _ (by simpa using hm), hs⟩

/-- Witness for C4: a two-job run whose first trimmer fails still
finishes the second job. -/
theorem failure_isolated_witness :
    Event.progress 0 .Failed (errorText "boom") ∈
      runWorker 2 false false
        ([] ++ (⟨["a.mp4"], ["o", "a.mp4"], "a.mp4"⟩, ⟨.empty, false, 1, "boom", false⟩) ::
          [(⟨["b.mp4"], ["o", "b.mp4"], "b.mp4"⟩, ⟨.empty, false, 0, "", false⟩)]) :=
  (failure_isolated 2 false [] [(⟨["b.mp4"], ["o", "b.mp4"], "b.mp4"⟩, ⟨.empty, false, 0, "", false⟩)]
    ⟨["a.mp4"], ["o", "a.mp4"], "a.mp4"⟩ ⟨.empty, false, 1, "boom", false⟩
    (by decide) (Or.inl rfl) rfl (by decide)).1

/-- C1 as stated is refuted by a concrete two-job run: cancellation is
requested while job 0 processes; the code then emits Canceled for
row 1 — job 1, which never started (it gets no Processing event). -/
theorem cancellation_claim_counterexample :
    Event.progress 1 .Canceled "Canceled by user" ∈
      runWorker 2 false false
        [(⟨["a.mp4"], ["o", "a.mp4"], "a.mp4"⟩, ⟨.empty, false, 1, "", true⟩),
         (⟨["b.mp4"], ["o", "b.mp4"], "b.mp4"⟩, ⟨.empty, false, 0, "", false⟩)] ∧
    Event.progress 1 .Processing "" ∉
      runWorker 2 false false
        [(⟨["a.mp4"], ["o", "a.mp4"], "a.mp4"⟩, ⟨.empty, false, 1, "", true⟩),
         (⟨["b.mp4"], ["o", "b.mp4"], "b.mp4"⟩, ⟨.empty, false, 0, "", false⟩)] := by
  decide

/-- C1 amended: with cancellation requested while the job at offset
pre.length processes, every job through that one reaches a terminal
status; the first not-yet-started job — when one exists — is the only
job ever marked Canceled; and all jobs after it receive no event at
all, remaining Pending. -/
theorem cancellation_boundary (trim : ℚ) (ow : Bool)
    (pre post : List (FileJob × JobEnv)) (item : FileJob × JobEnv)
    (hpre : ∀ p ∈ pre, p.2.cancelDuring = false)
    (hitem : item.2.cancelDuring = true) :
    (∀ r ≤ pre.length, ∃ s m,
      Event.progress r s m ∈ runWorker trim ow false (pre ++ item :: post) ∧ isTerminal s) ∧
    (post ≠ [] →
      Event.progress (pre.length + 1) .Canceled "Canceled by user" ∈
        runWorker trim ow false (pre ++ item :: post)) ∧
    (∀ r, pre.length + 1 < r → ∀ s m,
      Event.progress r s m ∉ runWorker trim ow false (pre ++ item :: post)) ∧
    (∀ r m, Event.progress r .Canceled m ∈ runWorker trim ow false (pre ++ item :: post) →
      r = pre.length + 1) := by
  have hsplit : runWorker trim ow false (pre ++ item :: post) =
      (blocks trim ow (pre ++ item :: post).length 0 (pre ++ [item]) ++
        (if post.isEmpty then []
         else [.progress (pre.length + 1) .Canceled "Canceled by user"])) ++
      [.overall (pre ++ item :: post).length (pre ++ item :: post).length, .finished] := by
    unfold runWorker
    rw [runAux_cancelAt trim ow (pre ++ item :: post).length pre item post 0 hpre hitem]
    simp only [Nat.zero_add]
  refine ⟨?_, ?_, ?_, ?_⟩
  · intro r hr
    have hr2 : r < (pre ++ [item]).length := by simp; omega
    obtain ⟨s, m, hm, hs⟩ :=
      blocks_terminal trim ow (pre ++ item :: post).length (pre ++ [item]) 0 r hr2
    refine ⟨s, m, ?_, hs⟩
    rw [hsplit]
    exact List.mem_append_left _ (List.mem_append_left _ (by simpa using hm))
  · intro hpost
    have hemp : post.isEmpty = false := by
      cases post
      · exact absurd rfl hpost
      · rfl
    rw [hsplit, hemp]
    exact List.mem_append_left _ (List.mem_append_right _ (by simp))
  · intro r hr s m hmem
    rw [hsplit] at hmem
    rcases List.mem_append.1 hmem with h | h
    · rcases List.mem_append.1 h with h2 | h2
      · rcases blocks_shape trim ow _ (pre ++ [item]) 0 _ h2 with ⟨t, ht⟩ | ⟨c, t2, ht⟩ |
          ⟨r', s', m', he, _, hlt, _⟩
        · exact Event.noConfusion ht
        · exact Event.noConfusion ht
        · have h3 := he
          simp only [Event.progress.injEq] at h3
          rw [h3.1] at hr
          simp only [Nat.zero_add, List.length_append, List.length_cons,
            List.length_nil] at hlt
          omega
      · split at h2
        · exact absurd h2 (List.not_mem_nil _)
        · simp only [List.mem_cons, List.not_mem_nil, or_false] at h2
          have h3 := h2
          simp only [Event.progress.injEq] at h3
          omega
    · simp only [List.mem_cons, List.not_mem_nil, or_false] at h
      rcases h with h | h
      · exact Event.noConfusion h
      · exact Event.noConfusion h
  · intro r m hmem
    rw [hsplit] at hmem
    rcases List.mem_append.1 hmem with h | h
    · rcases List.mem_append.1 h with h2 | h2
      · exact absurd h2 (blocks_no_canceled trim ow _ (pre ++ [item]) 0 r m)
      · split at h2
        · exact absurd h2 (List.not_mem_nil _)
        · simp only [List.mem_cons, List.not_mem_nil, or_false] at h2
          have h3 := h2
          simp only [Event.progress.injEq] at h3
          exact h3.1
    · simp only [List.mem_cons, List.not_mem_nil, or_false] at h
      rcases h with h | h
      · exact Event.noConfusion h
      · exact Event.noConfusion h

/-- Witness for the amended C1: in a three-job run canceled during the
middle job, the Canceled event lands on row 2. -/
theorem cancellation_boundary_witness :
    Event.progress 2 .Canceled "Canceled by user" ∈
      runWorker 2 false false
        ([(⟨["a.mp4"], ["o", "a.mp4"], "a.mp4"⟩, ⟨.empty, false, 0, "", false⟩)] ++
          (⟨["b.mp4"], ["o", "b.mp4"], "b.mp4"⟩, ⟨.empty, false, 1, "", true⟩) ::
          [(⟨["c.mp4"], ["o", "c.mp4"], "c.mp4"⟩, ⟨.empty, false, 0, "", false⟩)]) :=
  (cancellation_boundary 2 false
    [(⟨["a.mp4"], ["o", "a.mp4"], "a.mp4"⟩, ⟨.empty, false, 0, "", false⟩)]
    [(⟨["c.mp4"], ["o", "c.mp4"], "c.mp4"⟩, ⟨.empty, false, 0, "", false⟩)]
    (⟨["b.mp4"], ["o", "b.mp4"], "b.mp4"⟩, ⟨.empty, false, 1, "", true⟩)
    (by decide) rfl).2.1 (by decide)

/-- C9: when cancellation is requested while a job processes and its
terminated trimmer exits nonzero, that job is reported through the
normal result path as Failed with the process diagnostic text, and no
Canceled event is ever emitted for its row. -/
theorem interrupted_job_failed (trim : ℚ) (ow : Bool)
    (pre post : List (FileJob × JobEnv)) (job : FileJob) (env : JobEnv)
    (hpre : ∀ p ∈ pre, p.2.cancelDuring = false)
    (hc : env.cancelDuring = true)
    (hdur : (probe_duration job.input_path env.probe).1 = none ∨
      ∃ d, (probe_duration job.input_path env.probe).1 = some d ∧ trim + 1/100 < d)
    (hskip : (env.outputExists && !ow) = false)
    (hrc : env.returncode ≠ 0) :
    Event.progress pre.length .Failed (errorText env.stderr) ∈
      runWorker trim ow false (pre ++ (job, env) :: post) ∧
    ∀ m, Event.progress pre.length .Canceled m ∉
      runWorker trim ow false (pre ++ (job, env) :: post) := by
  have hsplit : runWorker trim ow false (pre ++ (job, env) :: post) =
      (blocks trim ow (pre ++ (job, env) :: post).length 0 (pre ++ [(job, env)]) ++
        (if post.isEmpty then []
         else [.progress (pre.length + 1) .Canceled "Canceled by user"])) ++
      [.overall (pre ++ (job, env) :: post).length (pre ++ (job, env) :: post).length,
        .finished] := by
    unfold runWorker
    rw [runAux_cancelAt trim ow (pre ++ (job, env) :: post).length pre (job, env) post 0 hpre hc]
    simp only [Nat.zero_add]
  constructor
  · rw [hsplit]
    have hm := processJob_failed trim ow (0 + pre.length) job env hdur hskip hrc
    have hb := blocks_middle trim ow (pre ++ (job, env) :: post).length pre (job, env) [] 0 _ hm
    exact List.mem_append_left _ (List.mem_append_left _ (by simpa using hb))
  · intro m hmem
    rw [hsplit] at hmem
    rcases List.mem_append.1 hmem with h | h
    · rcases List.mem_append.1 h with h2 | h2
      · exact absurd h2 (blocks_no_canceled trim ow _ (pre ++ [(job, env)]) 0 pre.length m)
      · split at h2
        · exact absurd h2 (List.not_mem_nil _)
        · simp only [List.mem_cons, List.not_mem_nil, or_false] at h2
          have h3 := h2
          simp only [Event.progress.injEq] at h3
          omega
    · simp only [List.mem_cons, List.not_mem_nil, or_false] at h
      rcases h with h | h
      · exact Event.noConfusion h
      · exact Event.noConfusion h

/-- Witness for C9: a single interrupted job ends Failed, not
Canceled. -/
theorem interrupted_job_failed_witness :
    Event.progress 0 .Failed (errorText "") ∈
      runWorker 2 false false
        ([] ++ (⟨["a.mp4"], ["o", "a.mp4"], "a.mp4"⟩, ⟨.empty, false, 1, "", true⟩) :: []) :=
  (interrupted_job_failed 2 false [] []
    ⟨["a.mp4"], ["o", "a.mp4"], "a.mp4"⟩ ⟨.empty, false, 1, "", true⟩
    (by decide) rfl (Or.inl rfl) rfl (by decide)).1

/-- Witness for C7 at a concrete empty run. -/
theorem run_final_events_witness :
    ∃ es, runWorker 2 false false [] = es ++ [.overall 0 0, .finished] ∧
      Event.finished ∉ es :=
  run_final_events 2 false false []
